import Mathlib

/-!
Verification of the peacock grammar-fuzzer engine sketch (src/template.c,
src/test.c and the C test drivers under src/test-data).

The engine operates on a caller-owned derivation buffer: a flat array of
alternative-index choices together with a length `len`, an immutable
capacity `cap`, and a transient step cursor.  The code generator emits one
specialized procedure per non-terminal for each of the three operations
(generate/mutate, serialize, unparse); here the specialization is embedded
as a single recursion over the grammar IR, faithful to the per-procedure
control flow of the C sketch.  All recursions carry an explicit fuel so
that every definition is total and executable; `none` marks fuel
exhaustion, which is a modelling artifact and never a behavior of the C
code.
-/

/-- A grammar symbol: a terminal (fixed non-empty byte sequence, bytes as
naturals) or a reference to a non-terminal by index. -/
inductive GSym where
  | term : List Nat → GSym
  | nt : Nat → GSym
deriving DecidableEq, Repr

/-- Grammar IR: each non-terminal has an ordered list of alternatives,
each alternative an ordered list of symbols; one non-terminal is the
designated entry point. -/
structure Grammar where
  alts : Nat → List (List GSym)
  entry : Nat

/-- Grammar wellformedness used by the decide path of generation: every
non-terminal has at least one alternative (in C, `rand() % 0` would be
undefined). -/
def GrammarWF (g : Grammar) : Prop := ∀ n, 0 < (g.alts n).length

/-- State of the generator: the backing storage of the derivation buffer
(caller-owned, arbitrary beyond `len`), the current length, the step
cursor, and the count of PRNG draws made so far. -/
structure GState where
  buf : Nat → Nat
  len : Nat
  step : Nat
  rc : Nat

/-- The process-wide PRNG modelled as a stream of draws: `rng t` is the
value returned by the `t`-th call to `rand()`, with `rc` the number of
calls already made. -/
structure EngineState where
  rng : Nat → Nat
  rc : Nat

/-- The generator engine (`generate_seq_N` in src/test.c, one procedure per
non-terminal, here run as a worklist of pending symbols, which is faithful
because generation never backtracks and failure propagates out of every
frame unchanged).  At a non-terminal: if `step < len` the recorded
alternative `buf[step]` is replayed; otherwise, if `len ≥ cap` the
procedure fails, else a fresh index `rand() % k` is pushed.  In both
paths the cursor then advances and the chosen alternative's symbols are
processed in order; terminals contribute nothing. -/
def genRun (g : Grammar) (cap : Nat) (rng : Nat → Nat) :
    Nat → List GSym → GState → Option (Bool × GState)
  | _, [], s => some (true, s)
  | 0, _ :: _, _ => none
  | fuel + 1, GSym.term _ :: rest, s => genRun g cap rng fuel rest s
  | fuel + 1, GSym.nt n :: rest, s =>
    if s.step < s.len then
      genRun g cap rng fuel ((g.alts n).getD (s.buf s.step) [] ++ rest)
        { s with step := s.step + 1 }
    else if cap ≤ s.len then
      some (false, s)
    else
      genRun g cap rng fuel ((g.alts n).getD (rng s.rc % (g.alts n).length) [] ++ rest)
        { buf := Function.update s.buf s.len (rng s.rc % (g.alts n).length),
          len := s.len + 1, step := s.step + 1, rc := s.rc + 1 }

/-- Facade `generate_sequence` (src/template.c): validates the capacity,
builds a local sequence view with step cursor 0, invokes the entry-point
generator and returns the new length (the success flag is dropped).  The
PRNG state is threaded through. -/
def generate_sequence (g : Grammar) (st : EngineState) (fuel : Nat)
    (buf : Nat → Nat) (len cap : Nat) : Option (Nat × (Nat → Nat) × EngineState) :=
  if cap = 0 then some (0, buf, st)
  else
    match genRun g cap st.rng fuel [GSym.nt g.entry] ⟨buf, len, 0, st.rc⟩ with
    | none => none
    | some (_, s') => some (s'.len, s'.buf, ⟨st.rng, s'.rc⟩)

/-- The engine's exported name for the generation facade (the drivers in
src/test-data declare it as `mutate_sequence`; `buf[0..len)` is the
preserved prefix and `len = 0` means generate from scratch). -/
def mutate_sequence : Grammar → EngineState → Nat → (Nat → Nat) → Nat → Nat →
    Option (Nat × (Nat → Nat) × EngineState) := generate_sequence

/-- Serializer call descriptor: either a per-non-terminal procedure frame
or the walk over the remaining symbols of the current frame. -/
inductive SerCall where
  | nt : Nat → SerCall
  | syms : List GSym → SerCall

/-- The serializer engine (`serialize_seq_N` in src/test.c).  A frame
returns the bytes it wrote together with the new step cursor.  If the
cursor is past `seqLen` the frame writes nothing; otherwise it reads its
alternative index, advances the cursor and emits the alternative's
symbols in order: a terminal that does not fit in the remaining output
budget stops the current frame (`goto end`), skipping the frame's
remaining symbols but not those of enclosing frames; a non-terminal is
serialized recursively, and the budget decreases by what it wrote. -/
def serRun (g : Grammar) (b : Nat → Nat) (seqLen : Nat) :
    Nat → SerCall → Nat → Nat → Option (List Nat × Nat)
  | 0, _, _, _ => none
  | fuel + 1, SerCall.nt n, rem, step =>
    if seqLen ≤ step then some ([], step)
    else serRun g b seqLen fuel (SerCall.syms ((g.alts n).getD (b step) [])) rem (step + 1)
  | _ + 1, SerCall.syms [], _, step => some ([], step)
  | fuel + 1, SerCall.syms (GSym.term t :: rest), rem, step =>
    if rem < t.length then some ([], step)
    else
      match serRun g b seqLen fuel (SerCall.syms rest) (rem - t.length) step with
      | none => none
      | some (bs, st') => some (t ++ bs, st')
  | fuel + 1, SerCall.syms (GSym.nt m :: rest), rem, step =>
    match serRun g b seqLen fuel (SerCall.nt m) rem step with
    | none => none
    | some (bs1, st1) =>
      match serRun g b seqLen fuel (SerCall.syms rest) (rem - bs1.length) st1 with
      | none => none
      | some (bs2, st2) => some (bs1 ++ bs2, st2)

/-- Facade `serialize_sequence` (src/template.c): returns 0 bytes when any
argument is null/zero, otherwise serializes from step cursor 0 at the
entry point and returns the bytes written.  The process-wide PRNG state is
in scope for every C entry point, so it is passed here as well; the
serializer never reads it. -/
def serialize_sequence (g : Grammar) (fuel : Nat) (st : EngineState)
    (seq : Nat → Nat) (seq_len out_len : Nat) : Option (List Nat) :=
  if seq_len = 0 ∨ out_len = 0 then some []
  else
    match serRun g seq seq_len fuel (SerCall.nt g.entry) out_len 0 with
    | none => none
    | some (out, _) => some out

/-- Unparser call descriptor: a per-non-terminal frame, the loop over the
remaining alternatives of a frame (with the absolute index of the next
alternative and the reserved slot position), or the walk over the symbols
of the current attempt. -/
inductive UnpCall where
  | nt : Nat → UnpCall
  | alts : List (List GSym) → Nat → Nat → UnpCall
  | syms : List GSym → UnpCall

/-- Unparser buffer state: backing storage and current length (the step
cursor is threaded separately, as in the C signature). -/
structure UState where
  buf : Nat → Nat
  len : Nat

/-- The unparser engine (`unparse_sequence_nontermXYZ` in src/template.c):
a frame fails if the buffer is full, else reserves slot `seq_idx := len`,
sets `len := seq_idx + 1` and tries the alternatives in grammar order.
Each attempt walks the alternative's symbols with a private cursor copy:
a terminal must match the input bytes at the cursor, a reference recurses.
The first fully matching alternative commits: the caller's cursor is
advanced and the alternative's index written into the reserved slot.  A
failed attempt restores `len := seq_idx + 1` before the next alternative;
when all alternatives fail, `len` is restored to `seq_idx` and the
caller's cursor is left unchanged. -/
def unpRun (g : Grammar) (cap : Nat) (input : List Nat) :
    Nat → UnpCall → UState → Nat → Option (Bool × UState × Nat)
  | 0, _, _, _ => none
  | fuel + 1, UnpCall.nt n, s, c =>
    if cap ≤ s.len then some (false, s, c)
    else unpRun g cap input fuel (UnpCall.alts (g.alts n) 0 s.len) ⟨s.buf, s.len + 1⟩ c
  | _ + 1, UnpCall.alts [] _ seqIdx, s, c => some (false, ⟨s.buf, seqIdx⟩, c)
  | fuel + 1, UnpCall.alts (a :: rest) j seqIdx, s, c =>
    match unpRun g cap input fuel (UnpCall.syms a) s c with
    | none => none
    | some (true, s', c') => some (true, ⟨Function.update s'.buf seqIdx j, s'.len⟩, c')
    | some (false, s', _) =>
      unpRun g cap input fuel (UnpCall.alts rest (j + 1) seqIdx) ⟨s'.buf, seqIdx + 1⟩ c
  | _ + 1, UnpCall.syms [], s, c => some (true, s, c)
  | fuel + 1, UnpCall.syms (GSym.term t :: rest), s, c =>
    if input.length - c < t.length ∨ (input.drop c).take t.length ≠ t then
      some (false, s, c)
    else unpRun g cap input fuel (UnpCall.syms rest) s (c + t.length)
  | fuel + 1, UnpCall.syms (GSym.nt m :: rest), s, c =>
    match unpRun g cap input fuel (UnpCall.nt m) s c with
    | none => none
    | some (false, s', c') => some (false, s', c')
    | some (true, s', c') => unpRun g cap input fuel (UnpCall.syms rest) s' c'

/-- Facade `unparse_sequence` (src/template.c): returns 0 when any
argument is null/zero, otherwise unparses from a fresh buffer view with
`len = 0` and input cursor 0 and returns the resulting derivation length
(whatever it is — the success flag and the final cursor are both
dropped). -/
def unparse_sequence (g : Grammar) (fuel : Nat) (buf : Nat → Nat)
    (cap : Nat) (input : List Nat) : Option (Nat × (Nat → Nat)) :=
  if cap = 0 ∨ input.length = 0 then some (0, buf)
  else
    match unpRun g cap input fuel (UnpCall.nt g.entry) ⟨buf, 0⟩ 0 with
    | none => none
    | some (_, s', _) => some (s'.len, s'.buf)

/-- The roundtrip scenario of src/test-data/C/fuzz_unparse.c: generate a
derivation from scratch into a zeroed buffer, serialize it, unparse the
bytes into a second zeroed buffer, serialize that; returns the two byte
strings that the harness compares. -/
def fuzz_unparse (g : Grammar) (st : EngineState) (fuel seqCap outCap : Nat) :
    Option (List Nat × List Nat) :=
  match mutate_sequence g st fuel (fun _ => 0) 0 seqCap with
  | none => none
  | some (genLen, genBuf, st1) =>
    match serialize_sequence g fuel st1 genBuf genLen outCap with
    | none => none
    | some out1 =>
      match unparse_sequence g fuel (fun _ => 0) seqCap out1 with
      | none => none
      | some (unpLen, unpBuf) =>
        match serialize_sequence g fuel st1 unpBuf unpLen outCap with
        | none => none
        | some out2 => some (out1, out2)

/-- The slice of a backing store between two positions, as a list. -/
def sliceB (b : Nat → Nat) (lo hi : Nat) : List Nat :=
  (List.range (hi - lo)).map (fun i => b (lo + i))

/-- The slice `input[lo..hi)` of the input byte string. -/
def sliceL (l : List Nat) (lo hi : Nat) : List Nat :=
  (l.drop lo).take (hi - lo)

/-- Validity of an entry list as the choices of a left-to-right pre-order
traversal prefix: walk the worklist, consuming one entry per non-terminal
visited and checking that it is a legal alternative index; a walk that
exhausts the entries validates them (the entries are a prefix of a full
traversal). -/
def checkRun (g : Grammar) : Nat → List GSym → List Nat → Bool
  | _, _, [] => true
  | _, [], _ :: _ => false
  | 0, _ :: _, _ :: _ => false
  | fuel + 1, GSym.term _ :: rest, es => checkRun g fuel rest es
  | fuel + 1, GSym.nt n :: rest, e :: es =>
    decide (e < (g.alts n).length) && checkRun g fuel ((g.alts n).getD e [] ++ rest) es

/-- Concrete grammar `E → 'a' | 'ab'` (bytes 97, 98): unambiguous, but the
first alternative's output is a proper prefix of the second's. -/
def g1 : Grammar :=
  ⟨fun n => match n with
    | 0 => [[GSym.term [97]], [GSym.term [97, 98]]]
    | _ => [[]], 0⟩

/-- Concrete grammar `E → A 'd'`, `A → 'ab'`: a terminal follows a
non-terminal reference inside the entry alternative. -/
def g2 : Grammar :=
  ⟨fun n => match n with
    | 0 => [[GSym.nt 1, GSym.term [100]]]
    | 1 => [[GSym.term [97, 98]]]
    | _ => [[]], 0⟩

/-- Concrete grammar `E → E` (every derivation exhausts any capacity). -/
def g3 : Grammar := ⟨fun _ => [[GSym.nt 0]], 0⟩

/-- Concrete grammar `E → 'a'`. -/
def g4 : Grammar := ⟨fun _ => [[GSym.term [97]]], 0⟩

/-- Concrete grammar whose entry point derives only the empty string. -/
def gEps : Grammar := ⟨fun _ => [[]], 0⟩

/-- Basic facts about a generator run: the length never decreases, entries
below the initial length are never touched, the length stays within
capacity, the cursor-below-length invariant is preserved, and a failing
run ends with the capacity exhausted. -/
theorem gen_facts (g : Grammar) (cap : Nat) (rng : Nat → Nat) :
    ∀ fuel wl s r s', genRun g cap rng fuel wl s = some (r, s') →
      s.len ≤ s'.len ∧ (∀ i, i < s.len → s'.buf i = s.buf i) ∧
      (s.len ≤ cap → s'.len ≤ cap) ∧
      (s.step ≤ s.len → s'.step ≤ s'.len) ∧
      (r = false → cap ≤ s'.len) := by
  intro fuel
  induction fuel with
  | zero =>
    intro wl s r s' h
    cases wl with
    | nil =>
      simp only [genRun, Option.some.injEq, Prod.mk.injEq] at h
      obtain ⟨hr, hs⟩ := h
      subst hs
      refine ⟨le_refl _, fun i _ => rfl, fun h => h, fun h => h, fun hf => ?_⟩
      rw [← hr] at hf
      exact absurd hf (by simp)
    | cons a rest => simp [genRun] at h
  | succ fuel ih =>
    intro wl s r s' h
    cases wl with
    | nil =>
      simp only [genRun, Option.some.injEq, Prod.mk.injEq] at h
      obtain ⟨hr, hs⟩ := h
      subst hs
      refine ⟨le_refl _, fun i _ => rfl, fun h => h, fun h => h, fun hf => ?_⟩
      rw [← hr] at hf
      exact absurd hf (by simp)
    | cons a rest =>
      cases a with
      | term t =>
        simp only [genRun] at h
        exact ih rest s r s' h
      | nt n =>
        simp only [genRun] at h
        by_cases hrp : s.step < s.len
        · rw [if_pos hrp] at h
          have := ih _ _ r s' h
          simp only at this
          exact ⟨this.1, fun i hi => this.2.1 i hi, this.2.2.1,
            fun _ => this.2.2.2.1 (by simpa using Nat.le_of_lt_succ (Nat.succ_lt_succ hrp)),
            this.2.2.2.2⟩
        · rw [if_neg hrp] at h
          by_cases hcap : cap ≤ s.len
          · rw [if_pos hcap] at h
            simp only [Option.some.injEq, Prod.mk.injEq] at h
            obtain ⟨_, hs⟩ := h
            subst hs
            exact ⟨le_refl _, fun i _ => rfl, fun h => h, fun h => h, fun _ => hcap⟩
          · rw [if_neg hcap] at h
            have := ih _ _ r s' h
            simp only at this
            refine ⟨Nat.le_trans (Nat.le_succ _) this.1, fun i hi => ?_, fun hle => ?_,
              fun hstep => ?_, this.2.2.2.2⟩
            · rw [this.2.1 i (Nat.lt_trans hi (Nat.lt_succ_self _))]
              exact Function.update_noteq (Nat.ne_of_lt hi) _ _
            · exact this.2.2.1 (Nat.succ_le_of_lt (Nat.lt_of_not_le hcap))
            · have heq : s.step = s.len := Nat.le_antisymm hstep (Nat.le_of_not_lt hrp)
              exact this.2.2.2.1 (by simp [heq])

/-- Claim C2: mutation preserves the prefix — for every buffer, preserved
length `k ≤ cap` and capacity `cap`, a successful call of the facade
`mutate_sequence` leaves positions `0..k-1` of the buffer unchanged; the
replay path only reads, never writes, positions below the initial
length. -/
theorem mutate_preserves_prefix (g : Grammar) (st : EngineState) (fuel : Nat)
    (buf : Nat → Nat) (k cap : Nat) (res : Nat × (Nat → Nat) × EngineState)
    (hk : k ≤ cap) (h : mutate_sequence g st fuel buf k cap = some res) :
    ∀ i, i < k → res.2.1 i = buf i := by
  intro i hi
  unfold mutate_sequence generate_sequence at h
  by_cases hc : cap = 0
  · rw [if_pos hc] at h
    simp only [Option.some.injEq] at h
    subst h
    rfl
  · rw [if_neg hc] at h
    cases hrun : genRun g cap st.rng fuel [GSym.nt g.entry] ⟨buf, k, 0, st.rc⟩ with
    | none => rw [hrun] at h; simp at h
    | some out =>
      rw [hrun] at h
      simp only [Option.some.injEq] at h
      subst h
      have := (gen_facts g cap st.rng fuel _ _ out.1 out.2 (by rw [← hrun])).2.1
      exact this i hi

/-- Claim C3: replay-or-decide — at a non-terminal, with the cursor-below
-length invariant on entry: if `step < len`, the recorded alternative
`buf[step]` is replayed and nothing is sampled or pushed; otherwise
`len = step` holds, and either the capacity is exhausted and the procedure
fails immediately (before any sampling or push), or a fresh index
`rng rc % k` is pushed; in both live paths the cursor advances by one. -/
theorem gen_replay_or_decide (g : Grammar) (cap : Nat) (rng : Nat → Nat)
    (fuel n : Nat) (rest : List GSym) (s : GState) (hinv : s.step ≤ s.len) :
    (s.step < s.len →
      genRun g cap rng (fuel + 1) (GSym.nt n :: rest) s =
        genRun g cap rng fuel ((g.alts n).getD (s.buf s.step) [] ++ rest)
          ⟨s.buf, s.len, s.step + 1, s.rc⟩) ∧
    (¬ s.step < s.len → s.len = s.step ∧
      (cap ≤ s.len → genRun g cap rng (fuel + 1) (GSym.nt n :: rest) s = some (false, s)) ∧
      (s.len < cap →
        genRun g cap rng (fuel + 1) (GSym.nt n :: rest) s =
          genRun g cap rng fuel
            ((g.alts n).getD (rng s.rc % (g.alts n).length) [] ++ rest)
            ⟨Function.update s.buf s.len (rng s.rc % (g.alts n).length),
             s.len + 1, s.step + 1, s.rc + 1⟩)) := by
  constructor
  · intro hlt
    simp only [genRun, if_pos hlt]
  · intro hge
    refine ⟨Nat.le_antisymm (Nat.le_of_not_lt hge) hinv, fun hcap => ?_, fun hlt => ?_⟩
    · simp only [genRun, if_neg hge, if_pos hcap]
    · simp only [genRun, if_neg hge, if_neg (Nat.not_le_of_lt hlt)]

/-- A nonempty buffer slice decomposes into its head entry and the rest. -/
theorem sliceB_cons (b : Nat → Nat) (lo hi : Nat) (h : lo < hi) :
    sliceB b lo hi = b lo :: sliceB b (lo + 1) hi := by
  unfold sliceB
  have h1 : hi - lo = (hi - (lo + 1)) + 1 := by omega
  rw [h1, List.range_succ_eq_map, List.map_cons, List.map_map]
  simp only [Nat.add_zero]
  congr 1
  apply List.map_congr_left
  intro i _
  simp only [Function.comp]
  congr 1
  omega

/-- An empty range gives an empty buffer slice. -/
theorem sliceB_nil (b : Nat → Nat) (lo hi : Nat) (h : hi ≤ lo) :
    sliceB b lo hi = [] := by
  simp [sliceB, Nat.sub_eq_zero_of_le h]

/-- Every entry pushed by a from-scratch (no-replay) generator run is a
valid alternative index for the non-terminal visited at that position:
the slice of entries the run wrote passes the traversal checker. -/
theorem gen_check (g : Grammar) (cap : Nat) (rng : Nat → Nat) (hwf : GrammarWF g) :
    ∀ fuel wl s r s', genRun g cap rng fuel wl s = some (r, s') → s.step = s.len →
      checkRun g fuel wl (sliceB s'.buf s.len s'.len) = true := by
  intro fuel
  induction fuel with
  | zero =>
    intro wl s r s' h hst
    cases wl with
    | nil =>
      simp only [genRun, Option.some.injEq, Prod.mk.injEq] at h
      rw [← h.2, sliceB_nil _ _ _ (le_refl _)]
      rfl
    | cons a rest => simp [genRun] at h
  | succ fuel ih =>
    intro wl s r s' h hst
    cases wl with
    | nil =>
      simp only [genRun, Option.some.injEq, Prod.mk.injEq] at h
      rw [← h.2, sliceB_nil _ _ _ (le_refl _)]
      rfl
    | cons a rest =>
      cases a with
      | term t =>
        simp only [genRun] at h
        have := ih rest s r s' h hst
        cases hsl : sliceB s'.buf s.len s'.len with
        | nil => rfl
        | cons e es => rw [hsl] at this; exact this
      | nt n =>
        simp only [genRun] at h
        have hnolt : ¬ s.step < s.len := by omega
        rw [if_neg hnolt] at h
        by_cases hcap : cap ≤ s.len
        · rw [if_pos hcap] at h
          simp only [Option.some.injEq, Prod.mk.injEq] at h
          rw [← h.2, sliceB_nil _ _ _ (le_refl _)]
          rfl
        · rw [if_neg hcap] at h
          have hfacts := gen_facts g cap rng fuel _ _ r s' h
          have hlen : s.len + 1 ≤ s'.len := hfacts.1
          have hhd : s'.buf s.len = rng s.rc % (g.alts n).length := by
            rw [hfacts.2.1 s.len (Nat.lt_succ_self _)]
            exact Function.update_same _ _ _
          rw [sliceB_cons _ _ _ (Nat.lt_of_lt_of_le (Nat.lt_succ_self _) hlen), hhd]
          have htail := ih _ _ r s' h (by simp [hst])
          simp only [checkRun, Bool.and_eq_true, decide_eq_true_eq]
          exact ⟨Nat.mod_lt _ (hwf n), htail⟩

/-- Claim C6: generator failure policy — a failing run of the entry-point
generator fails only by derivation-capacity exhaustion (the final length
equals the capacity), removes or alters none of the entries present at
entry (no rollback, length monotone), leaves a buffer whose entries are a
valid traversal prefix when generation started from scratch on a
wellformed grammar, and the facade still hands the new length to the
caller. -/
theorem gen_failure_policy (g : Grammar) (st : EngineState) (fuel cap len : Nat)
    (buf : Nat → Nat) (s' : GState)
    (h : genRun g cap st.rng fuel [GSym.nt g.entry] ⟨buf, len, 0, st.rc⟩ = some (false, s'))
    (hlen : len ≤ cap) :
    (∀ i, i < len → s'.buf i = buf i) ∧ len ≤ s'.len ∧ s'.len = cap ∧
    (len = 0 → GrammarWF g →
      checkRun g fuel [GSym.nt g.entry] (sliceB s'.buf 0 s'.len) = true) ∧
    (cap ≠ 0 →
      generate_sequence g st fuel buf len cap = some (s'.len, s'.buf, ⟨st.rng, s'.rc⟩)) := by
  have hfacts := gen_facts g cap st.rng fuel _ _ false s' h
  refine ⟨fun i hi => hfacts.2.1 i hi, hfacts.1,
    Nat.le_antisymm (hfacts.2.2.1 hlen) (hfacts.2.2.2.2 rfl), fun h0 hwf => ?_, fun hc => ?_⟩
  · subst h0
    exact gen_check g cap st.rng hwf fuel _ _ false s' h rfl
  · unfold generate_sequence
    rw [if_neg hc, h]

/-- Witness for C2 at a concrete input: grammar `g1`, preserved prefix
`[1]` of length 1, capacity 16; the replay run leaves position 0
unchanged. -/
theorem mutate_preserves_prefix_witness :
    (((1 : Nat), (fun _ => (1 : Nat)), (⟨fun _ => 0, 0⟩ : EngineState)) :
      Nat × (Nat → Nat) × EngineState).2.1 0 = (fun _ => (1 : Nat)) 0 :=
  mutate_preserves_prefix g1 ⟨fun _ => 0, 0⟩ 10 (fun _ => 1) 1 16
    (1, fun _ => 1, ⟨fun _ => 0, 0⟩) (by decide) rfl 0 (by decide)

/-- Witness for C3 at a concrete input: grammar `g1`, buffer `[1]` with
cursor 0 and length 1, so the replay path applies and the recorded
alternative is reused. -/
theorem gen_replay_or_decide_witness :
    genRun g1 16 (fun _ => 0) 6 [GSym.nt 0] ⟨fun _ => 1, 1, 0, 0⟩ =
      genRun g1 16 (fun _ => 0) 5 ((g1.alts 0).getD 1 [] ++ []) ⟨fun _ => 1, 1, 1, 0⟩ :=
  (gen_replay_or_decide g1 16 (fun _ => 0) 5 0 [] ⟨fun _ => 1, 1, 0, 0⟩ (by decide)).1
    (by decide)

/-- Witness for C6 at a concrete input: the left-recursive grammar `g3`
with capacity 2 exhausts the buffer; the failing run has written a valid
traversal prefix. -/
theorem gen_failure_policy_witness :
    checkRun g3 10 [GSym.nt 0]
      (sliceB (Function.update (Function.update (fun _ => 0) 0 0) 1 0) 0 2) = true :=
  ((gen_failure_policy g3 ⟨fun _ => 0, 0⟩ 10 2 0 (fun _ => 0)
      ⟨Function.update (Function.update (fun _ => 0) 0 0) 1 0, 2, 2, 2⟩
      rfl (by decide)).2.2.2.1) rfl (fun n => by simp [g3])

/-- A serializer frame never writes more than the remaining output
budget. -/
theorem ser_len (g : Grammar) (b : Nat → Nat) (seqLen : Nat) :
    ∀ fuel call rem step out st',
      serRun g b seqLen fuel call rem step = some (out, st') → out.length ≤ rem := by
  intro fuel
  induction fuel with
  | zero => intro call rem step out st' h; simp [serRun] at h
  | succ fuel ih =>
    intro call rem step out st' h
    cases call with
    | nt n =>
      simp only [serRun] at h
      by_cases hg : seqLen ≤ step
      · rw [if_pos hg] at h
        simp only [Option.some.injEq, Prod.mk.injEq] at h
        rw [← h.1]
        exact Nat.zero_le _
      · rw [if_neg hg] at h
        exact ih _ _ _ _ _ h
    | syms l =>
      cases l with
      | nil =>
        simp only [serRun, Option.some.injEq, Prod.mk.injEq] at h
        rw [← h.1]
        exact Nat.zero_le _
      | cons a rest =>
        cases a with
        | term t =>
          simp only [serRun] at h
          by_cases hfit : rem < t.length
          · rw [if_pos hfit] at h
            simp only [Option.some.injEq, Prod.mk.injEq] at h
            rw [← h.1]
            exact Nat.zero_le _
          · rw [if_neg hfit] at h
            cases hin : serRun g b seqLen fuel (SerCall.syms rest) (rem - t.length) step with
            | none => rw [hin] at h; simp at h
            | some p =>
              obtain ⟨bs, st1⟩ := p
              rw [hin] at h
              dsimp only at h
              simp only [Option.some.injEq, Prod.mk.injEq] at h
              have := ih _ _ _ _ _ hin
              rw [← h.1]
              simp only [List.length_append]
              omega
        | nt m =>
          simp only [serRun] at h
          cases hin1 : serRun g b seqLen fuel (SerCall.nt m) rem step with
          | none => rw [hin1] at h; simp at h
          | some p1 =>
            obtain ⟨bs1, st1⟩ := p1
            rw [hin1] at h
            dsimp only at h
            cases hin2 : serRun g b seqLen fuel (SerCall.syms rest) (rem - bs1.length) st1 with
            | none => rw [hin2] at h; simp at h
            | some p2 =>
              obtain ⟨bs2, st2⟩ := p2
              rw [hin2] at h
              dsimp only at h
              simp only [Option.some.injEq, Prod.mk.injEq] at h
              have h1 := ih _ _ _ _ _ hin1
              have h2 := ih _ _ _ _ _ hin2
              rw [← h.1]
              simp only [List.length_append]
              omega

/-- Capacity sufficiency for the serializer core: if the run with a larger
budget produced output that already fits within a smaller budget, the run
with the smaller budget produces the identical output and cursor. -/
theorem ser_cap_suff (g : Grammar) (b : Nat → Nat) (seqLen : Nat) :
    ∀ fuel call r₁ r₂ step out st', r₁ ≤ r₂ →
      serRun g b seqLen fuel call r₂ step = some (out, st') → out.length ≤ r₁ →
      serRun g b seqLen fuel call r₁ step = some (out, st') := by
  intro fuel
  induction fuel with
  | zero => intro call r₁ r₂ step out st' h12 h hfit; simp [serRun] at h
  | succ fuel ih =>
    intro call r₁ r₂ step out st' h12 h hfit
    cases call with
    | nt n =>
      simp only [serRun] at h ⊢
      by_cases hg : seqLen ≤ step
      · rw [if_pos hg] at h ⊢; exact h
      · rw [if_neg hg] at h ⊢
        exact ih _ _ _ _ _ _ h12 h hfit
    | syms l =>
      cases l with
      | nil => simp only [serRun] at h ⊢; exact h
      | cons a rest =>
        cases a with
        | term t =>
          simp only [serRun] at h ⊢
          by_cases hfit2 : r₂ < t.length
          · rw [if_pos hfit2] at h
            rw [if_pos (Nat.lt_of_le_of_lt h12 hfit2)]
            exact h
          · rw [if_neg hfit2] at h
            cases hin : serRun g b seqLen fuel (SerCall.syms rest) (r₂ - t.length) step with
            | none => rw [hin] at h; simp at h
            | some p =>
              obtain ⟨bs, st1⟩ := p
              rw [hin] at h
              dsimp only at h
              simp only [Option.some.injEq, Prod.mk.injEq] at h
              have htR : t.length ≤ r₁ := by
                rw [← h.1] at hfit
                simp only [List.length_append] at hfit
                omega
              rw [if_neg (Nat.not_lt_of_le htR)]
              have hrec := ih _ (r₁ - t.length) (r₂ - t.length) _ _ _
                (Nat.sub_le_sub_right h12 _) hin
                (by rw [← h.1] at hfit; simp only [List.length_append] at hfit; omega)
              rw [hrec]
              dsimp only
              rw [h.1, h.2]
        | nt m =>
          simp only [serRun] at h ⊢
          cases hin1 : serRun g b seqLen fuel (SerCall.nt m) r₂ step with
          | none => rw [hin1] at h; simp at h
          | some p1 =>
            obtain ⟨bs1, st1⟩ := p1
            rw [hin1] at h
            dsimp only at h
            cases hin2 : serRun g b seqLen fuel (SerCall.syms rest) (r₂ - bs1.length) st1 with
            | none => rw [hin2] at h; simp at h
            | some p2 =>
              obtain ⟨bs2, st2⟩ := p2
              rw [hin2] at h
              dsimp only at h
              simp only [Option.some.injEq, Prod.mk.injEq] at h
              have hlen1 : bs1.length ≤ r₁ := by
                rw [← h.1] at hfit
                simp only [List.length_append] at hfit
                omega
              have hrec1 := ih _ r₁ r₂ _ _ _ h12 hin1 hlen1
              have hrec2 := ih _ (r₁ - bs1.length) (r₂ - bs1.length) _ _ _
                (Nat.sub_le_sub_right h12 _) hin2
                (by rw [← h.1] at hfit; simp only [List.length_append] at hfit; omega)
              rw [hrec1]
              dsimp only
              rw [hrec2]
              dsimp only
              rw [h.1, h.2]

/-- Counterexample to C5 as stated: under grammar `g2` (`E → A 'd'`,
`A → 'ab'`) and the complete derivation `[0, 0]`, the output at capacity 1
is `"d"` — when `A`'s terminal `"ab"` does not fit, only `A`'s own frame
stops, and the enclosing frame still emits the later terminal `"d"` — so
the output at capacity 1 is not a prefix of the output `"abd"` at
capacity 3. -/
theorem serialize_monotone_cx :
    serialize_sequence g2 10 ⟨fun _ => 0, 0⟩ (fun _ => 0) 2 1 = some [100] ∧
    serialize_sequence g2 10 ⟨fun _ => 0, 0⟩ (fun _ => 0) 2 3 = some [97, 98, 100] ∧
    ¬ ∃ rest, [97, 98, 100] = [100] ++ rest := by
  refine ⟨rfl, rfl, ?_⟩
  rintro ⟨rest, hrest⟩
  simp at hrest

/-- Claim C5 (amended): serializer capacity sufficiency — for output
capacities `c₁ ≤ c₂`, whenever the byte string produced at capacity `c₂`
already fits within `c₁`, serialization at `c₁` produces the identical
byte string and byte count (so the output is independent of the capacity
once the capacity is at least the complete serialization's length).  When
a terminal does not fit, the current procedure invocation stops and
returns what it has written, but an enclosing invocation continues with
its own later symbols, so the unconditional prefix property fails
(`serialize_monotone_cx`). -/
theorem serialize_cap_sufficiency (g : Grammar) (fuel : Nat) (st : EngineState)
    (b : Nat → Nat) (n c₁ c₂ : Nat) (out : List Nat) (h12 : c₁ ≤ c₂)
    (h2 : serialize_sequence g fuel st b n c₂ = some out) (hfit : out.length ≤ c₁) :
    serialize_sequence g fuel st b n c₁ = some out := by
  unfold serialize_sequence at h2 ⊢
  by_cases hn : n = 0
  · rw [if_pos (Or.inl hn)] at h2 ⊢
    exact h2
  · by_cases hc2 : c₂ = 0
    · rw [if_pos (Or.inr hc2)] at h2
      rw [if_pos (Or.inr (Nat.le_antisymm (hc2 ▸ h12) (Nat.zero_le _)))]
      exact h2
    · rw [if_neg (by simp [hn, hc2])] at h2
      by_cases hc1 : c₁ = 0
      · rw [if_pos (Or.inr hc1)]
        cases hrun : serRun g b n fuel (SerCall.nt g.entry) c₂ 0 with
        | none => rw [hrun] at h2; simp at h2
        | some p =>
          obtain ⟨out2, st2⟩ := p
          rw [hrun] at h2
          dsimp only at h2
          simp only [Option.some.injEq] at h2
          subst h2
          subst hc1
          simp only [Option.some.injEq]
          exact (List.eq_nil_of_length_eq_zero (Nat.le_antisymm hfit (Nat.zero_le _))).symm
      · rw [if_neg (by simp [hn, hc1])]
        cases hrun : serRun g b n fuel (SerCall.nt g.entry) c₂ 0 with
        | none => rw [hrun] at h2; simp at h2
        | some p =>
          obtain ⟨out2, st2⟩ := p
          rw [hrun] at h2
          dsimp only at h2
          simp only [Option.some.injEq] at h2
          subst h2
          rw [ser_cap_suff g b n fuel _ c₁ c₂ _ _ _ h12 hrun hfit]

/-- Witness for C5 (amended) at a concrete input: under `g2`, the output
at capacity 5 is `"abd"` of length 3 ≤ 4, so capacity 4 produces the same
bytes. -/
theorem serialize_cap_sufficiency_witness :
    serialize_sequence g2 10 ⟨fun _ => 0, 0⟩ (fun _ => 0) 2 4 = some [97, 98, 100] :=
  serialize_cap_sufficiency g2 10 ⟨fun _ => 0, 0⟩ (fun _ => 0) 2 4 5 [97, 98, 100]
    (by decide) rfl (by decide)

/-- Claim C7: serialization is deterministic and PRNG-free — the facade's
result (bytes and count alike) is independent of the process-wide PRNG
state, i.e. of the seed and of any prior generator calls; it is a pure
function of the derivation buffer, its length, and the output capacity. -/
theorem serialize_prng_free (g : Grammar) (fuel : Nat) (st₁ st₂ : EngineState)
    (seq : Nat → Nat) (seq_len out_len : Nat) :
    serialize_sequence g fuel st₁ seq seq_len out_len =
      serialize_sequence g fuel st₂ seq seq_len out_len := rfl

/-- Claim C10: the facades treat zero-length data as invalid input, not as
an empty value — `serialize_sequence` returns 0 bytes whenever
`seq_len = 0` and `unparse_sequence` returns length 0 whenever the input
is empty, for all other argument values; in particular under `gEps`,
whose entry point derives the empty string, the engine-level unparse of
the empty input would succeed with derivation length 1, yet the facade
still returns 0. -/
theorem facade_zero_guards :
    (∀ g fuel st seq out_len,
      serialize_sequence g fuel st seq 0 out_len = some []) ∧
    (∀ g fuel buf cap, unparse_sequence g fuel buf cap [] = some (0, buf)) ∧
    (unpRun gEps 5 [] 10 (UnpCall.nt 0) ⟨fun _ => 0, 0⟩ 0).map
        (fun r => (r.1, r.2.1.len, r.2.2)) = some (true, 1, 0) ∧
    unparse_sequence gEps 10 (fun _ => 0) 5 [] = some (0, fun _ => 0) := by
  refine ⟨fun g fuel st seq out_len => ?_, fun g fuel buf cap => ?_, rfl, rfl⟩
  · simp [serialize_sequence]
  · simp [unparse_sequence]

/-- Structural facts about an unparser run, simultaneously for the three
call forms: buffer entries below the frame's reserved region are never
written; the input cursor stays within the input and only advances on
success; the length respects the capacity; a failing frame restores its
entry length and leaves the caller's cursor unchanged. -/
theorem unp_facts (g : Grammar) (cap : Nat) (input : List Nat) :
    ∀ fuel call s c r s' c',
      unpRun g cap input fuel call s c = some (r, s', c') → c ≤ input.length →
      (match call with | UnpCall.alts _ _ k => k < s.len | _ => True) →
      (∀ i, i < (match call with | UnpCall.alts _ _ k => k | _ => s.len) →
        s'.buf i = s.buf i) ∧
      c' ≤ input.length ∧
      (s.len ≤ cap → s'.len ≤ cap) ∧
      (r = true → c ≤ c' ∧
        (match call with
         | UnpCall.nt _ => s.len < s'.len
         | UnpCall.alts _ _ k => k < s'.len
         | UnpCall.syms _ => s.len ≤ s'.len)) ∧
      (r = false →
        (match call with
         | UnpCall.nt _ => s'.len = s.len ∧ c' = c
         | UnpCall.alts _ _ k => s'.len = k ∧ c' = c
         | UnpCall.syms _ => s.len ≤ s'.len)) := by
  intro fuel
  induction fuel with
  | zero => intro call s c r s' c' h _ _; simp [unpRun] at h
  | succ fuel ih =>
    intro call s c r s' c' h hc hpre
    cases call with
    | nt n =>
      simp only [unpRun] at h
      by_cases hcap : cap ≤ s.len
      · rw [if_pos hcap] at h
        simp only [Option.some.injEq, Prod.mk.injEq] at h
        obtain ⟨rfl, rfl, rfl⟩ := h
        exact ⟨fun i _ => rfl, hc, fun hl => hl, fun hr => by simp at hr,
          fun _ => ⟨rfl, rfl⟩⟩
      · rw [if_neg hcap] at h
        have := ih (UnpCall.alts (g.alts n) 0 s.len) ⟨s.buf, s.len + 1⟩ c r s' c' h hc
          (Nat.lt_succ_self _)
        simp only at this
        obtain ⟨hA, hc', hcapp, htrue, hfalse⟩ := this
        refine ⟨fun i hi => hA i hi, hc',
          fun _ => hcapp (Nat.succ_le_of_lt (Nat.lt_of_not_le hcap)),
          fun hr => ⟨(htrue hr).1, (htrue hr).2⟩,
          fun hr => ⟨(hfalse hr).1, (hfalse hr).2⟩⟩
    | alts as j k =>
      cases as with
      | nil =>
        simp only [unpRun, Option.some.injEq, Prod.mk.injEq] at h
        obtain ⟨rfl, rfl, rfl⟩ := h
        exact ⟨fun i _ => rfl, hc, fun hl => Nat.le_trans (Nat.le_of_lt hpre) hl,
          fun hr => by simp at hr, fun _ => ⟨rfl, rfl⟩⟩
      | cons a rest =>
        simp only [unpRun] at h
        cases hatt : unpRun g cap input fuel (UnpCall.syms a) s c with
        | none => rw [hatt] at h; simp at h
        | some p =>
          obtain ⟨rb, s1, c1⟩ := p
          rw [hatt] at h
          have hattF := ih (UnpCall.syms a) s c rb s1 c1 hatt hc trivial
          simp only at hattF
          obtain ⟨hA1, hc1, hcap1, htrue1, hfalse1⟩ := hattF
          cases rb with
          | true =>
            dsimp only at h
            simp only [Option.some.injEq, Prod.mk.injEq] at h
            obtain ⟨rfl, rfl, rfl⟩ := h
            refine ⟨fun i hi => ?_, hc1, fun hl => hcap1 hl,
              fun _ => ⟨(htrue1 rfl).1,
                Nat.lt_of_lt_of_le hpre (htrue1 rfl).2⟩,
              fun hr => by simp at hr⟩
            simp only
            rw [Function.update_noteq (Nat.ne_of_lt hi)]
            exact hA1 i (Nat.lt_trans hi hpre)
          | false =>
            dsimp only at h
            have hrec := ih (UnpCall.alts rest (j + 1) k) ⟨s1.buf, k + 1⟩ c r s' c' h hc
              (Nat.lt_succ_self _)
            simp only at hrec
            obtain ⟨hA2, hc2, hcap2, htrue2, hfalse2⟩ := hrec
            refine ⟨fun i hi => ?_, hc2,
              fun hl => hcap2 (Nat.le_trans (Nat.succ_le_of_lt hpre) hl), ?_, ?_⟩
            · rw [hA2 i hi]
              exact hA1 i (Nat.lt_trans hi hpre)
            · intro hr
              exact ⟨(htrue2 hr).1, (htrue2 hr).2⟩
            · intro hr
              exact ⟨(hfalse2 hr).1, (hfalse2 hr).2⟩
    | syms l =>
      cases l with
      | nil =>
        simp only [unpRun, Option.some.injEq, Prod.mk.injEq] at h
        obtain ⟨rfl, rfl, rfl⟩ := h
        exact ⟨fun i _ => rfl, hc, fun hl => hl,
          fun _ => ⟨Nat.le_refl _, Nat.le_refl _⟩, fun _ => Nat.le_refl _⟩
      | cons a rest =>
        cases a with
        | term t =>
          simp only [unpRun] at h
          by_cases hm : input.length - c < t.length ∨ (input.drop c).take t.length ≠ t
          · rw [if_pos hm] at h
            simp only [Option.some.injEq, Prod.mk.injEq] at h
            obtain ⟨rfl, rfl, rfl⟩ := h
            exact ⟨fun i _ => rfl, hc, fun hl => hl, fun hr => by simp at hr,
              fun _ => Nat.le_refl _⟩
          · rw [if_neg hm] at h
            push_neg at hm
            have hcbound : c + t.length ≤ input.length := by omega
            have := ih (UnpCall.syms rest) s (c + t.length) r s' c' h hcbound trivial
            simp only at this
            obtain ⟨hA, hc', hcapp, htrue, hfalse⟩ := this
            exact ⟨hA, hc', hcapp,
              fun hr => ⟨Nat.le_trans (Nat.le_add_right _ _) (htrue hr).1, (htrue hr).2⟩,
              hfalse⟩
        | nt m =>
          simp only [unpRun] at h
          cases hch : unpRun g cap input fuel (UnpCall.nt m) s c with
          | none => rw [hch] at h; simp at h
          | some p =>
            obtain ⟨rb, s1, c1⟩ := p
            rw [hch] at h
            have hchF := ih (UnpCall.nt m) s c rb s1 c1 hch hc trivial
            simp only at hchF
            obtain ⟨hA1, hc1, hcap1, htrue1, hfalse1⟩ := hchF
            cases rb with
            | false =>
              dsimp only at h
              simp only [Option.some.injEq, Prod.mk.injEq] at h
              obtain ⟨rfl, rfl, rfl⟩ := h
              exact ⟨hA1, hc1, hcap1, fun hr => by simp at hr,
                fun _ => (hfalse1 rfl).1 ▸ Nat.le_refl _⟩
            | true =>
              dsimp only at h
              have hrest := ih (UnpCall.syms rest) s1 c1 r s' c' h hc1 trivial
              simp only at hrest
              obtain ⟨hA2, hc2, hcap2, htrue2, hfalse2⟩ := hrest
              have hlen1 : s.len < s1.len := (htrue1 rfl).2
              refine ⟨fun i hi => ?_, hc2, fun hl => hcap2 (hcap1 hl), ?_, ?_⟩
              · rw [hA2 i (Nat.lt_trans hi hlen1)]
                exact hA1 i hi
              · intro hr
                exact ⟨Nat.le_trans (htrue1 rfl).1 (htrue2 hr).1,
                  Nat.le_trans (Nat.le_of_lt hlen1) (htrue2 hr).2⟩
              · intro hr
                exact Nat.le_trans (Nat.le_of_lt hlen1) (hfalse2 hr)

/-- Claim C9: the unparse facade does not require the whole input to be
consumed — when the entry non-terminal succeeds with a final input cursor
strictly below the input length, the facade still returns that (non-zero)
derivation length, silently ignoring the trailing bytes; the final cursor
is never compared against the input length. -/
theorem unparse_prefix_accept (g : Grammar) (fuel : Nat) (buf : Nat → Nat)
    (cap : Nat) (input : List Nat) (s' : UState) (c' : Nat)
    (hcap : cap ≠ 0) (hinp : input ≠ [])
    (h : unpRun g cap input fuel (UnpCall.nt g.entry) ⟨buf, 0⟩ 0 = some (true, s', c'))
    (hproper : c' < input.length) :
    unparse_sequence g fuel buf cap input = some (s'.len, s'.buf) ∧ 1 ≤ s'.len := by
  constructor
  · unfold unparse_sequence
    rw [if_neg (by simp [hcap, hinp])]
    rw [h]
  · have := unp_facts g cap input fuel _ _ _ _ _ _ h (Nat.zero_le _) trivial
    exact (this.2.2.2.1 rfl).2

/-- Witness for C9 at a concrete input: grammar `g4` (`E → 'a'`) on input
`"ab"` matches the proper prefix `"a"` (cursor 1 < 2) and the facade
returns derivation length 1. -/
theorem unparse_prefix_accept_witness :
    unparse_sequence g4 10 (fun _ => 0) 5 [97, 98] =
      some (1, Function.update (fun _ => 0) 0 0) ∧ (1 : Nat) ≤ 1 :=
  unparse_prefix_accept g4 10 (fun _ => 0) 5 [97, 98]
    ⟨Function.update (fun _ => 0) 0 0, 1⟩ 1 (by decide) (by decide) rfl (by decide)

/-- Claim C8: length–capacity invariant — assuming the initial length is
within capacity, a generator run and an unparser frame both keep the
length within capacity (generation extends only through the guarded push;
the unparser's slot claim is guarded and its restores only shrink), and
the `mutate_sequence` and `unparse_sequence` facades return lengths at
most the capacity. -/
theorem length_capacity_invariant :
    (∀ g rng cap fuel wl s r s', s.len ≤ cap →
      genRun g cap rng fuel wl s = some (r, s') → s'.len ≤ cap) ∧
    (∀ g cap input fuel n s c r s' c', s.len ≤ cap → c ≤ input.length →
      unpRun g cap input fuel (UnpCall.nt n) s c = some (r, s', c') → s'.len ≤ cap) ∧
    (∀ g st fuel buf len cap res, len ≤ cap →
      mutate_sequence g st fuel buf len cap = some res → res.1 ≤ cap) ∧
    (∀ g fuel buf cap input res,
      unparse_sequence g fuel buf cap input = some res → res.1 ≤ cap) := by
  refine ⟨fun g rng cap fuel wl s r s' hlen h => ?_,
    fun g cap input fuel n s c r s' c' hlen hc h => ?_,
    fun g st fuel buf len cap res hlen h => ?_,
    fun g fuel buf cap input res h => ?_⟩
  · exact (gen_facts g cap rng fuel wl s r s' h).2.2.1 hlen
  · exact (unp_facts g cap input fuel _ s c r s' c' h hc trivial).2.2.1 hlen
  · unfold mutate_sequence generate_sequence at h
    by_cases hc : cap = 0
    · rw [if_pos hc] at h
      simp only [Option.some.injEq] at h
      subst h
      exact Nat.zero_le _
    · rw [if_neg hc] at h
      cases hrun : genRun g cap st.rng fuel [GSym.nt g.entry] ⟨buf, len, 0, st.rc⟩ with
      | none => rw [hrun] at h; simp at h
      | some p =>
        rw [hrun] at h
        simp only [Option.some.injEq] at h
        subst h
        exact (gen_facts g cap st.rng fuel _ _ p.1 p.2 (by rw [← hrun])).2.2.1 hlen
  · unfold unparse_sequence at h
    by_cases hg : cap = 0 ∨ input.length = 0
    · rw [if_pos hg] at h
      simp only [Option.some.injEq] at h
      subst h
      exact Nat.zero_le _
    · rw [if_neg hg] at h
      cases hrun : unpRun g cap input fuel (UnpCall.nt g.entry) ⟨buf, 0⟩ 0 with
      | none => rw [hrun] at h; simp at h
      | some p =>
        obtain ⟨rb, s', c'⟩ := p
        rw [hrun] at h
        simp only [Option.some.injEq] at h
        subst h
        exact (unp_facts g cap input fuel _ _ _ _ _ _ hrun (Nat.zero_le _)
          trivial).2.2.1 (Nat.zero_le _)

/-- Witness for C8 at a concrete input: the left-recursive grammar `g3`
fills the buffer up to capacity 2 and the facade returns exactly 2. -/
theorem length_capacity_invariant_witness :
    (((2 : Nat), Function.update (Function.update (fun _ => 0) 0 0) 1 0,
      (⟨fun _ => 0, 2⟩ : EngineState)) : Nat × (Nat → Nat) × EngineState).1 ≤ 2 :=
  length_capacity_invariant.2.2.1 g3 ⟨fun _ => 0, 0⟩ 10 (fun _ => 0) 0 2
    (2, Function.update (Function.update (fun _ => 0) 0 0) 1 0, ⟨fun _ => 0, 2⟩)
    (by decide) rfl

/-- Fuel monotonicity of the unparser: a run that completes within some
fuel gives the same result with any larger fuel. -/
theorem unp_mono (g : Grammar) (cap : Nat) (input : List Nat) :
    ∀ fuel f call s c res, fuel ≤ f →
      unpRun g cap input fuel call s c = some res →
      unpRun g cap input f call s c = some res := by
  intro fuel
  induction fuel with
  | zero => intro f call s c res hle h; simp [unpRun] at h
  | succ fuel ih =>
    intro f call s c res hle h
    obtain ⟨f, rfl⟩ : ∃ f', f = f' + 1 := ⟨f - 1, by omega⟩
    have hle' : fuel ≤ f := by omega
    cases call with
    | nt n =>
      simp only [unpRun] at h ⊢
      by_cases hcap : cap ≤ s.len
      · rw [if_pos hcap] at h ⊢; exact h
      · rw [if_neg hcap] at h ⊢
        exact ih f _ _ _ _ hle' h
    | alts as j seqIdx =>
      cases as with
      | nil => simp only [unpRun] at h ⊢; exact h
      | cons a rest =>
        simp only [unpRun] at h ⊢
        cases hatt : unpRun g cap input fuel (UnpCall.syms a) s c with
        | none => rw [hatt] at h; simp at h
        | some p =>
          obtain ⟨rb, s1, c1⟩ := p
          rw [hatt] at h
          rw [ih f _ _ _ _ hle' hatt]
          cases rb with
          | true => exact h
          | false =>
            dsimp only at h ⊢
            exact ih f _ _ _ _ hle' h
    | syms l =>
      cases l with
      | nil => simp only [unpRun] at h ⊢; exact h
      | cons a rest =>
        cases a with
        | term t =>
          simp only [unpRun] at h ⊢
          by_cases hm : input.length - c < t.length ∨ (input.drop c).take t.length ≠ t
          · rw [if_pos hm] at h ⊢; exact h
          · rw [if_neg hm] at h ⊢
            exact ih f _ _ _ _ hle' h
        | nt m =>
          simp only [unpRun] at h ⊢
          cases hch : unpRun g cap input fuel (UnpCall.nt m) s c with
          | none => rw [hch] at h; simp at h
          | some p =>
            obtain ⟨rb, s1, c1⟩ := p
            rw [hch] at h
            rw [ih f _ _ _ _ hle' hch]
            cases rb with
            | false => exact h
            | true =>
              dsimp only at h ⊢
              exact ih f _ _ _ _ hle' h

/-- The unparser never reads the derivation buffer: the success flag, the
resulting length and the resulting cursor of a run are independent of the
buffer contents it starts from. -/
theorem unp_bufIrrel (g : Grammar) (cap : Nat) (input : List Nat) :
    ∀ fuel call len b₁ b₂ c,
      (unpRun g cap input fuel call ⟨b₁, len⟩ c).map (fun r => (r.1, r.2.1.len, r.2.2)) =
      (unpRun g cap input fuel call ⟨b₂, len⟩ c).map (fun r => (r.1, r.2.1.len, r.2.2)) := by
  intro fuel
  induction fuel with
  | zero => intro call len b₁ b₂ c; simp [unpRun]
  | succ fuel ih =>
    intro call len b₁ b₂ c
    cases call with
    | nt n =>
      simp only [unpRun]
      by_cases hcap : cap ≤ len
      · rw [if_pos hcap, if_pos hcap]
        rfl
      · rw [if_neg hcap, if_neg hcap]
        exact ih _ _ b₁ b₂ c
    | alts as j seqIdx =>
      cases as with
      | nil => simp only [unpRun]; rfl
      | cons a rest =>
        simp only [unpRun]
        have hIH := ih (UnpCall.syms a) len b₁ b₂ c
        cases h₁ : unpRun g cap input fuel (UnpCall.syms a) ⟨b₁, len⟩ c with
        | none =>
          cases h₂ : unpRun g cap input fuel (UnpCall.syms a) ⟨b₂, len⟩ c with
          | none => rfl
          | some p₂ => rw [h₁, h₂] at hIH; simp at hIH
        | some p₁ =>
          cases h₂ : unpRun g cap input fuel (UnpCall.syms a) ⟨b₂, len⟩ c with
          | none => rw [h₁, h₂] at hIH; simp at hIH
          | some p₂ =>
            rw [h₁, h₂] at hIH
            obtain ⟨rb₁, s₁, c₁⟩ := p₁
            obtain ⟨rb₂, s₂, c₂⟩ := p₂
            simp only [Option.map_some, Option.map_some', Option.some.injEq, Prod.mk.injEq] at hIH
            obtain ⟨hrb, hlen, hcc⟩ := hIH
            subst hrb
            subst hcc
            cases rb₁ with
            | true =>
              simp [hlen]
            | false =>
              dsimp only
              obtain ⟨sb₁, sl₁⟩ := s₁
              obtain ⟨sb₂, sl₂⟩ := s₂
              exact ih (UnpCall.alts rest (j + 1) seqIdx) (seqIdx + 1) sb₁ sb₂ c
    | syms l =>
      cases l with
      | nil => simp only [unpRun]; rfl
      | cons a rest =>
        cases a with
        | term t =>
          simp only [unpRun]
          by_cases hm : input.length - c < t.length ∨ (input.drop c).take t.length ≠ t
          · rw [if_pos hm, if_pos hm]
            rfl
          · rw [if_neg hm, if_neg hm]
            exact ih _ _ b₁ b₂ _
        | nt m =>
          simp only [unpRun]
          have hIH := ih (UnpCall.nt m) len b₁ b₂ c
          cases h₁ : unpRun g cap input fuel (UnpCall.nt m) ⟨b₁, len⟩ c with
          | none =>
            cases h₂ : unpRun g cap input fuel (UnpCall.nt m) ⟨b₂, len⟩ c with
            | none => rfl
            | some p₂ => rw [h₁, h₂] at hIH; simp at hIH
          | some p₁ =>
            cases h₂ : unpRun g cap input fuel (UnpCall.nt m) ⟨b₂, len⟩ c with
            | none => rw [h₁, h₂] at hIH; simp at hIH
            | some p₂ =>
              rw [h₁, h₂] at hIH
              obtain ⟨rb₁, s₁, c₁⟩ := p₁
              obtain ⟨rb₂, s₂, c₂⟩ := p₂
              simp only [Option.map_some, Option.map_some', Option.some.injEq, Prod.mk.injEq] at hIH
              obtain ⟨hrb, hlen, hcc⟩ := hIH
              subst hrb
              subst hcc
              cases rb₁ with
              | false =>
                simp [hlen]
              | true =>
                dsimp only
                obtain ⟨sb₁, sl₁⟩ := s₁
                obtain ⟨sb₂, sl₂⟩ := s₂
                simp only at hlen
                subst hlen
                exact ih (UnpCall.syms rest) sl₁ sb₁ sb₂ c₁

/-- Canonical outcome of attempting one alternative from a given reserved
length and cursor: the success flag, resulting length and resulting
cursor (independent of buffer contents by `unp_bufIrrel`). -/
def attemptOutcome (g : Grammar) (cap : Nat) (input : List Nat) (fuel : Nat)
    (alt : List GSym) (len c : Nat) : Option (Bool × Nat × Nat) :=
  (unpRun g cap input fuel (UnpCall.syms alt) ⟨fun _ => 0, len⟩ c).map
    (fun r => (r.1, r.2.1.len, r.2.2))

/-- Fuel monotonicity for canonical attempt outcomes. -/
theorem attempt_mono (g : Grammar) (cap : Nat) (input : List Nat)
    (fuel f : Nat) (alt : List GSym) (len c : Nat) (x : Bool × Nat × Nat)
    (hle : fuel ≤ f) (h : attemptOutcome g cap input fuel alt len c = some x) :
    attemptOutcome g cap input f alt len c = some x := by
  unfold attemptOutcome at h ⊢
  cases hrun : unpRun g cap input fuel (UnpCall.syms alt) ⟨fun _ => 0, len⟩ c with
  | none => rw [hrun] at h; simp at h
  | some res =>
    rw [hrun] at h
    rw [unp_mono g cap input fuel f _ _ _ _ hle hrun]
    exact h

/-- The alternatives loop of an unparser frame realizes the first-match
policy: on failure every alternative's canonical attempt fails; on
success some alternative's attempt succeeds with exactly the resulting
length and cursor, its absolute index is the committed entry, and every
earlier alternative's attempt fails. -/
theorem alts_spec (g : Grammar) (cap : Nat) (input : List Nat) :
    ∀ as fuel j k s c r s' c', s.len = k + 1 →
      unpRun g cap input fuel (UnpCall.alts as j k) s c = some (r, s', c') →
      (r = false → ∀ i, i < as.length →
        ∃ ln cc, attemptOutcome g cap input fuel (as.getD i []) (k + 1) c =
          some (false, ln, cc)) ∧
      (r = true → ∃ i, i < as.length ∧ s'.buf k = j + i ∧
        attemptOutcome g cap input fuel (as.getD i []) (k + 1) c =
          some (true, s'.len, c') ∧
        ∀ i', i' < i →
          ∃ ln cc, attemptOutcome g cap input fuel (as.getD i' []) (k + 1) c =
            some (false, ln, cc)) := by
  intro as
  induction as with
  | nil =>
    intro fuel j k s c r s' c' hlen h
    cases fuel with
    | zero => simp [unpRun] at h
    | succ f =>
      simp only [unpRun, Option.some.injEq, Prod.mk.injEq] at h
      obtain ⟨rfl, _, _⟩ := h
      exact ⟨fun _ i hi => by simp at hi, fun hr => by simp at hr⟩
  | cons a rest ih =>
    intro fuel j k s c r s' c' hlen h
    cases fuel with
    | zero => simp [unpRun] at h
    | succ f =>
      obtain ⟨sb, sl⟩ := s
      simp only at hlen
      subst hlen
      simp only [unpRun] at h
      cases hatt : unpRun g cap input f (UnpCall.syms a) ⟨sb, k + 1⟩ c with
      | none => rw [hatt] at h; simp at h
      | some p =>
        obtain ⟨rb, s1, c1⟩ := p
        rw [hatt] at h
        have hcanon : attemptOutcome g cap input (f + 1) a (k + 1) c =
            some (rb, s1.len, c1) := by
          apply attempt_mono g cap input f (f + 1) a (k + 1) c _ (Nat.le_succ _)
          unfold attemptOutcome
          rw [← unp_bufIrrel g cap input f (UnpCall.syms a) (k + 1) sb (fun _ => 0) c,
            hatt]
          rfl
        cases rb with
        | true =>
          dsimp only at h
          simp only [Option.some.injEq, Prod.mk.injEq] at h
          obtain ⟨rfl, rfl, rfl⟩ := h
          refine ⟨fun hr => by simp at hr, fun _ => ⟨0, by simp, ?_, ?_, ?_⟩⟩
          · simp [Function.update_same]
          · simpa using hcanon
          · intro i' hi'
            exact absurd hi' (Nat.not_lt_zero _)
        | false =>
          dsimp only at h
          have hrec := ih f (j + 1) k ⟨s1.buf, k + 1⟩ c r s' c' rfl h
          refine ⟨fun hr i hi => ?_, fun hr => ?_⟩
          · cases i with
            | zero =>
              exact ⟨s1.len, c1, by simpa using hcanon⟩
            | succ i' =>
              obtain ⟨ln, cc, hi'⟩ := hrec.1 hr i' (by simpa using Nat.lt_of_succ_lt_succ hi)
              exact ⟨ln, cc, by
                rw [List.getD_cons_succ]
                exact attempt_mono g cap input f (f + 1) _ _ _ _ (Nat.le_succ _) hi'⟩
          · obtain ⟨i, hi, hbuf, hattI, hearlier⟩ := hrec.2 hr
            refine ⟨i + 1, by simpa using Nat.succ_lt_succ hi, by omega, ?_, ?_⟩
            · rw [List.getD_cons_succ]
              exact attempt_mono g cap input f (f + 1) _ _ _ _ (Nat.le_succ _) hattI
            · intro i' hi'
              cases i' with
              | zero =>
                exact ⟨s1.len, c1, by simpa using hcanon⟩
              | succ i'' =>
                obtain ⟨ln, cc, hI⟩ := hearlier i'' (Nat.lt_of_succ_lt_succ hi')
                exact ⟨ln, cc, by
                  rw [List.getD_cons_succ]
                  exact attempt_mono g cap input f (f + 1) _ _ _ _ (Nat.le_succ _) hI⟩

/-- Claim C4: unparser backtracking atomicity and tie-break — for a
non-terminal frame with room in the buffer: on success, some alternative
is the first (lowest absolute index) whose canonical attempt from the
claimed slot succeeds, its index is written at the reserved slot, the
caller's cursor advances to the attempt's cursor, and every earlier
alternative's attempt fails (the derivation length having been restored
before each next attempt); on failure, every alternative's attempt fails,
the derivation length is restored to its entry value, entries below it
are untouched, and the caller's cursor is unchanged. -/
theorem unparse_first_match (g : Grammar) (cap : Nat) (input : List Nat)
    (fuel n : Nat) (s : UState) (c : Nat) (r : Bool) (s' : UState) (c' : Nat)
    (hc : c ≤ input.length)
    (h : unpRun g cap input (fuel + 1) (UnpCall.nt n) s c = some (r, s', c'))
    (hcap : s.len < cap) :
    (r = false → c' = c ∧ s'.len = s.len ∧ (∀ i, i < s.len → s'.buf i = s.buf i) ∧
      ∀ i, i < (g.alts n).length →
        ∃ ln cc, attemptOutcome g cap input fuel ((g.alts n).getD i []) (s.len + 1) c =
          some (false, ln, cc)) ∧
    (r = true → c ≤ c' ∧ ∃ i, i < (g.alts n).length ∧ s'.buf s.len = i ∧
      attemptOutcome g cap input fuel ((g.alts n).getD i []) (s.len + 1) c =
        some (true, s'.len, c') ∧
      ∀ i', i' < i →
        ∃ ln cc, attemptOutcome g cap input fuel ((g.alts n).getD i' []) (s.len + 1) c =
          some (false, ln, cc)) := by
  have hfacts := unp_facts g cap input (fuel + 1) (UnpCall.nt n) s c r s' c' h hc trivial
  simp only at hfacts
  simp only [unpRun, if_neg (Nat.not_le_of_lt hcap)] at h
  have hspec := alts_spec g cap input (g.alts n) fuel 0 s.len ⟨s.buf, s.len + 1⟩ c r s' c'
    rfl h
  refine ⟨fun hr => ⟨(hfacts.2.2.2.2 hr).2, (hfacts.2.2.2.2 hr).1,
      fun i hi => hfacts.1 i hi, fun i hi => hspec.1 hr i hi⟩,
    fun hr => ⟨(hfacts.2.2.2.1 hr).1, ?_⟩⟩
  obtain ⟨i, hi, hbuf, hattI, hearlier⟩ := hspec.2 hr
  exact ⟨i, hi, by simpa using hbuf, hattI, hearlier⟩

/-- Witness for C4 at a concrete input: under `g1` on the non-member
input `"z"`, the frame fails and in particular the first alternative's
canonical attempt fails. -/
theorem unparse_first_match_witness :
    ∃ ln cc, attemptOutcome g1 5 [122] 9 ((g1.alts 0).getD 0 []) (0 + 1) 0 =
      some (false, ln, cc) :=
  ((unparse_first_match g1 5 [122] 9 0 ⟨fun _ => 0, 0⟩ 0 false ⟨fun _ => 0, 0⟩ 0
      (by decide) rfl (by decide)).1 rfl).2.2.2 0 (by decide)

/-- The empty input slice. -/
theorem sliceL_nil (l : List Nat) (c : Nat) : sliceL l c c = [] := by
  simp [sliceL]

/-- Adjacent input slices concatenate. -/
theorem sliceL_append (l : List Nat) (a b c : Nat) (h1 : a ≤ b) (h2 : b ≤ c) :
    sliceL l a b ++ sliceL l b c = sliceL l a c := by
  unfold sliceL
  have h3 : c - a = (b - a) + (c - b) := by omega
  rw [h3, List.take_add]
  congr 2
  rw [List.drop_drop]
  congr 1
  omega

/-- Length of an in-bounds input slice. -/
theorem sliceL_len (l : List Nat) (a b : Nat) (h1 : a ≤ b) (h2 : b ≤ l.length) :
    (sliceL l a b).length = b - a := by
  simp only [sliceL, List.length_take, List.length_drop]
  omega

/-- A matched terminal equals the corresponding input slice. -/
theorem sliceL_term (l : List Nat) (c : Nat) (t : List Nat)
    (h : (l.drop c).take t.length = t) : sliceL l c (c + t.length) = t := by
  unfold sliceL
  rw [Nat.add_sub_cancel_left]
  exact h

/-- Unparse soundness: a successful unparser call wrote, at the positions
it claimed, exactly the choices that make the serializer reproduce the
input bytes it matched.  For any buffer agreeing with the final state on
the claimed region, any fuel at least the unparser's, any sequence length
covering the region and any output budget covering the matched bytes, the
corresponding serializer call emits exactly the matched slice and ends at
the region's end. -/
theorem unp_sound (g : Grammar) (cap : Nat) (input : List Nat) :
    ∀ fuel call s c s' c',
      unpRun g cap input fuel call s c = some (true, s', c') → c ≤ input.length →
      (match call with
       | UnpCall.nt n => ∀ b f seqLen rem, fuel ≤ f → s'.len ≤ seqLen → c' - c ≤ rem →
          (∀ i, s.len ≤ i → i < s'.len → b i = s'.buf i) →
          serRun g b seqLen f (SerCall.nt n) rem s.len = some (sliceL input c c', s'.len)
       | UnpCall.alts as j k =>
          s.len = k + 1 →
          j ≤ s'.buf k ∧ s'.buf k - j < as.length ∧
          ∀ b f seqLen rem, fuel ≤ f → s'.len ≤ seqLen → c' - c ≤ rem →
            (∀ i, k ≤ i → i < s'.len → b i = s'.buf i) →
            serRun g b seqLen f (SerCall.syms (as.getD (s'.buf k - j) [])) rem (k + 1) =
              some (sliceL input c c', s'.len)
       | UnpCall.syms l => ∀ b f seqLen rem, fuel ≤ f → s'.len ≤ seqLen → c' - c ≤ rem →
          (∀ i, s.len ≤ i → i < s'.len → b i = s'.buf i) →
          serRun g b seqLen f (SerCall.syms l) rem s.len =
            some (sliceL input c c', s'.len)) := by
  intro fuel
  induction fuel with
  | zero => intro call s c s' c' h _; simp [unpRun] at h
  | succ fl ih =>
    intro call s c s' c' h hc
    cases call with
    | nt n =>
      have hfr := unp_facts g cap input (fl + 1) (UnpCall.nt n) s c true s' c' h hc trivial
      simp only at hfr
      have hlen : s.len < s'.len := (hfr.2.2.2.1 (by trivial)).2
      simp only [unpRun] at h
      by_cases hcap : cap ≤ s.len
      · rw [if_pos hcap] at h
        simp at h
      · rw [if_neg hcap] at h
        have hspec := ih (UnpCall.alts (g.alts n) 0 s.len) ⟨s.buf, s.len + 1⟩ c s' c' h hc
        simp only at hspec
        obtain ⟨hj0, hlt, hser⟩ := hspec (by trivial)
        intro b f seqLen rem hf hseq hrem hagree
        obtain ⟨f0, rfl⟩ : ∃ f0, f = f0 + 1 := ⟨f - 1, by omega⟩
        simp only [serRun, if_neg (Nat.not_le_of_lt (Nat.lt_of_lt_of_le hlen hseq))]
        have hb : b s.len = s'.buf s.len := hagree s.len (Nat.le_refl _) hlen
        rw [hb]
        have := hser b f0 seqLen rem (by omega) hseq hrem hagree
        simpa using this
    | alts as j k =>
      intro hlen
      obtain ⟨sb, sl⟩ := s
      simp only at hlen
      subst hlen
      cases as with
      | nil => simp [unpRun] at h
      | cons a rest =>
        simp only [unpRun] at h
        cases hatt : unpRun g cap input fl (UnpCall.syms a) ⟨sb, k + 1⟩ c with
        | none => rw [hatt] at h; simp at h
        | some p =>
          obtain ⟨rb, s1, c1⟩ := p
          rw [hatt] at h
          cases rb with
          | true =>
            dsimp only at h
            simp only [Option.some.injEq, Prod.mk.injEq] at h
            obtain ⟨rfl, rfl⟩ := h.2
            have hser1 := ih (UnpCall.syms a) ⟨sb, k + 1⟩ c s1 c1 hatt hc
            simp only at hser1
            refine ⟨by simp, ?_, ?_⟩
            · simp [Function.update_same]
            · intro b f seqLen rem hf hseq hrem hagree
              simp only [Function.update_same, Nat.sub_self, List.getD_cons_zero]
              apply hser1 b f seqLen rem (by omega) (by exact hseq) hrem
              intro i hi1 hi2
              have hi2' : i < s1.len := hi2
              rw [hagree i (Nat.le_trans (Nat.le_succ _) hi1) (by exact hi2')]
              show Function.update s1.buf k j i = s1.buf i
              rw [Function.update_noteq (by omega)]
          | false =>
            dsimp only at h
            have hrec := ih (UnpCall.alts rest (j + 1) k) ⟨s1.buf, k + 1⟩ c s' c' h hc
            simp only at hrec
            obtain ⟨hj1, hlt, hser⟩ := hrec (by trivial)
            refine ⟨by omega, by have := hlt; simp only [List.length_cons]; omega, ?_⟩
            intro b f seqLen rem hf hseq hrem hagree
            have hidx : s'.buf k - j = (s'.buf k - (j + 1)) + 1 := by omega
            rw [hidx, List.getD_cons_succ]
            exact hser b f seqLen rem (by omega) hseq hrem hagree
    | syms l =>
      cases l with
      | nil =>
        simp only [unpRun, Option.some.injEq, Prod.mk.injEq] at h
        obtain ⟨rfl, rfl⟩ := h.2
        intro b f seqLen rem hf hseq hrem hagree
        obtain ⟨f0, rfl⟩ : ∃ f0, f = f0 + 1 := ⟨f - 1, by omega⟩
        simp [serRun, sliceL_nil]
      | cons a rest =>
        cases a with
        | term t =>
          simp only [unpRun] at h
          by_cases hm : input.length - c < t.length ∨ (input.drop c).take t.length ≠ t
          · rw [if_pos hm] at h
            simp at h
          · rw [if_neg hm] at h
            push_neg at hm
            obtain ⟨hml, hmt⟩ := hm
            have hcb : c + t.length ≤ input.length := by omega
            have hfr := unp_facts g cap input fl (UnpCall.syms rest) s (c + t.length)
              true s' c' h hcb trivial
            simp only at hfr
            have hcmono : c + t.length ≤ c' := (hfr.2.2.2.1 (by trivial)).1
            have hser2 := ih (UnpCall.syms rest) s (c + t.length) s' c' h hcb
            simp only at hser2
            intro b f seqLen rem hf hseq hrem hagree
            obtain ⟨f0, rfl⟩ : ∃ f0, f = f0 + 1 := ⟨f - 1, by omega⟩
            simp only [serRun, if_neg (show ¬ rem < t.length by omega)]
            rw [hser2 b f0 seqLen (rem - t.length) (by omega) hseq (by omega) hagree]
            have happ := sliceL_append input c (c + t.length) c'
              (Nat.le_add_right _ _) hcmono
            rw [sliceL_term input c t hmt] at happ
            dsimp only
            rw [happ]
        | nt m =>
          simp only [unpRun] at h
          cases hch : unpRun g cap input fl (UnpCall.nt m) s c with
          | none => rw [hch] at h; simp at h
          | some p =>
            obtain ⟨rb, s1, c1⟩ := p
            rw [hch] at h
            cases rb with
            | false => dsimp only at h; simp at h
            | true =>
              dsimp only at h
              have hfr1 := unp_facts g cap input fl (UnpCall.nt m) s c true s1 c1 hch hc
                trivial
              simp only at hfr1
              have hc1 : c1 ≤ input.length := hfr1.2.1
              have hcm1 : c ≤ c1 := (hfr1.2.2.2.1 (by trivial)).1
              have hl1 : s.len < s1.len := (hfr1.2.2.2.1 (by trivial)).2
              have hfr2 := unp_facts g cap input fl (UnpCall.syms rest) s1 c1 true s' c' h
                hc1 trivial
              simp only at hfr2
              have hcm2 : c1 ≤ c' := (hfr2.2.2.2.1 (by trivial)).1
              have hl2 : s1.len ≤ s'.len := (hfr2.2.2.2.1 (by trivial)).2
              have hA2 : ∀ i, i < s1.len → s'.buf i = s1.buf i := hfr2.1
              have hser1 := ih (UnpCall.nt m) s c s1 c1 hch hc
              simp only at hser1
              have hser2 := ih (UnpCall.syms rest) s1 c1 s' c' h hc1
              simp only at hser2
              intro b f seqLen rem hf hseq hrem hagree
              obtain ⟨f0, rfl⟩ : ∃ f0, f = f0 + 1 := ⟨f - 1, by omega⟩
              simp only [serRun]
              rw [hser1 b f0 seqLen rem (by omega) (Nat.le_trans hl2 hseq) (by omega)
                (fun i hi1 hi2 => by
                  rw [hagree i hi1 (Nat.lt_of_lt_of_le hi2 hl2)]
                  exact hA2 i hi2)]
              dsimp only
              rw [sliceL_len input c c1 hcm1 hc1]
              rw [hser2 b f0 seqLen (rem - (c1 - c)) (by omega) hseq (by omega)
                (fun i hi1 hi2 => hagree i (Nat.le_trans (Nat.le_of_lt hl1) hi1) hi2)]
              dsimp only
              rw [sliceL_append input c c1 c' hcm1 hcm2]

/-- Counterexample to C1 as stated: under grammar `g1` (`E → 'a' | 'ab'`)
the generation with PRNG stream 1 completes (no capacity exhaustion) with
derivation `[1]`; the fuzz_unparse pipeline serializes it to `"ab"`, but
the unparser commits to the first-matching alternative `'a'` and the
facade ignores the trailing byte, so re-serialization yields `"a"`: the
two byte strings (and their counts) differ. -/
theorem roundtrip_cx :
    (genRun g1 16 (fun _ => 1) 20 [GSym.nt 0] ⟨fun _ => 0, 0, 0, 0⟩).map
        (fun r => (r.1, r.2.len)) = some (true, 1) ∧
    fuzz_unparse g1 ⟨fun _ => 1, 0⟩ 20 16 10 = some ([97, 98], [97]) ∧
    ([97, 98] : List Nat) ≠ [97] := ⟨rfl, rfl, by decide⟩

/-- Claim C1 (amended): the roundtrip holds under full consumption — for
a derivation produced by a completed generation, if unparsing its
serialization succeeds with the final input cursor at the end of the
input (the unparser consumed every byte), then serializing the
reconstructed buffer yields exactly the same byte string, byte for byte
and in count.  Without full consumption the equality can fail
(`roundtrip_cx`): the first-match tie-break may commit to an alternative
covering only a proper prefix, and the facade ignores trailing bytes. -/
theorem roundtrip_after_full_unparse (g : Grammar) (st st2 : EngineState)
    (fuel f seqCap outCap dlen : Nat) (dbuf : Nat → Nat) (st1 : EngineState)
    (out1 : List Nat) (s' : UState) (c' : Nat)
    (hgen : mutate_sequence g st fuel (fun _ => 0) 0 seqCap = some (dlen, dbuf, st1))
    (hser : serialize_sequence g fuel st1 dbuf dlen outCap = some out1)
    (hunp : unpRun g seqCap out1 fuel (UnpCall.nt g.entry) ⟨fun _ => 0, 0⟩ 0 =
      some (true, s', c'))
    (hfull : c' = out1.length)
    (hf : fuel ≤ f) :
    serialize_sequence g f st2 s'.buf s'.len outCap = some out1 := by
  have hlen1 : out1.length ≤ outCap := by
    unfold serialize_sequence at hser
    by_cases hg : dlen = 0 ∨ outCap = 0
    · rw [if_pos hg] at hser
      simp only [Option.some.injEq] at hser
      subst hser
      exact Nat.zero_le _
    · rw [if_neg hg] at hser
      cases hrun : serRun g dbuf dlen fuel (SerCall.nt g.entry) outCap 0 with
      | none => rw [hrun] at hser; simp at hser
      | some p =>
        obtain ⟨o, stp⟩ := p
        rw [hrun] at hser
        dsimp only at hser
        simp only [Option.some.injEq] at hser
        subst hser
        exact ser_len g dbuf dlen fuel _ _ _ _ _ hrun
  have hfacts := unp_facts g seqCap out1 fuel (UnpCall.nt g.entry) ⟨fun _ => 0, 0⟩ 0
    true s' c' hunp (Nat.zero_le _) trivial
  simp only at hfacts
  have hpos : 0 < s'.len := (hfacts.2.2.2.1 (by trivial)).2
  have hsound := unp_sound g seqCap out1 fuel (UnpCall.nt g.entry) ⟨fun _ => 0, 0⟩ 0
    s' c' hunp (Nat.zero_le _)
  simp only at hsound
  unfold serialize_sequence
  by_cases houtz : outCap = 0
  · rw [if_pos (Or.inr houtz)]
    have : out1 = [] := List.eq_nil_of_length_eq_zero (by omega)
    rw [this]
  · rw [if_neg (by push_neg; exact ⟨by omega, houtz⟩)]
    have hrun := hsound s'.buf f s'.len outCap hf (Nat.le_refl _)
      (by omega) (fun i _ _ => rfl)
    rw [hrun]
    dsimp only
    congr 1
    subst hfull
    simp [sliceL]

/-- Witness for C1 (amended) at a concrete input: under `g1` with PRNG
stream 0, generation produces `[0]`, serialization gives `"a"`, the
unparser consumes all of `"a"` reconstructing `[0]`, and re-serialization
returns `"a"` again. -/
theorem roundtrip_after_full_unparse_witness :
    serialize_sequence g1 12 ⟨fun _ => 0, 1⟩ (Function.update (fun _ => 0) 0 0) 1 10 =
      some [97] :=
  roundtrip_after_full_unparse g1 ⟨fun _ => 0, 0⟩ ⟨fun _ => 0, 1⟩ 12 12 16 10 1
    (Function.update (fun _ => 0) 0 0) ⟨fun _ => 0, 1⟩ [97]
    ⟨Function.update (fun _ => 0) 0 0, 1⟩ 1 rfl rfl rfl rfl (by decide)
